import Mathlib

/-!
Verification development for the license-plate response-parsing pipeline of
`app.py` (Streamlit + Gemini plate recognizer).  The Python source is shallowly
embedded: each regex used by the program is translated into an executable
decision procedure on `List Char` that reproduces the backtracking behaviour of
the concrete pattern, `json.loads` is modelled by an executable JSON reader,
and the retry loop is modelled as a function of an abstract outcome sequence.
-/

namespace PlateApp

/-! ## Character classes (ASCII model of the Python regex classes) -/

/-- ASCII digit, the model of the regex class `\d` as used on the stripped
uppercase candidate strings (which are ASCII-only). -/
def isDig (c : Char) : Bool := 48 ≤ c.toNat && c.toNat ≤ 57

/-- Uppercase ASCII letter, the model of the regex class `[A-Z]`. -/
def isLet (c : Char) : Bool := 65 ≤ c.toNat && c.toNat ≤ 90

/-- Lowercase ASCII letter. -/
def isLowerAscii (c : Char) : Bool := 97 ≤ c.toNat && c.toNat ≤ 122

/-- Characters kept by `re.sub(r"[^A-Z0-9]", "", ...)`. -/
def isUpperAlnum (c : Char) : Bool := isDig c || isLet c

/-- Model of Python `str.upper` on one character (ASCII case mapping; non-ASCII
letters are irrelevant because every later step only keeps `A-Z0-9`). -/
def pyToUpper (c : Char) : Char :=
  if isLowerAscii c then Char.ofNat (c.toNat - 32) else c

/-- Model of the regex class `\s` / Python `str.strip` whitespace (ASCII). -/
def isSpacePy (c : Char) : Bool :=
  c = ' ' || c = '\t' || c = '\n' || c = '\x0d' || c = '\x0b' || c = '\x0c'

/-- Characters accepted by the separator fragment `\s*[- ]?\s*` of the
fallback pattern. -/
def sepChar (c : Char) : Bool := isSpacePy c || c = '-'

/-! ## `normalize_plate` -/

/-- `re.sub(r"[^A-Z0-9]", "", raw.upper())`: uppercase, then keep `A-Z0-9`. -/
def stripU (l : List Char) : List Char := (l.map pyToUpper).filter isUpperAlnum

/-- Decision procedure for
`re.fullmatch(r"(\d{2})([A-Z]{1,2}\d?)(\d{4,6})", s)` on a string, returning
the three captured groups.  After the two digits and the leading letter run,
the remainder must be all digits; the greedy `\d?` absorbs the first of those
digits into the series group exactly when the remaining count stays in `4..6`
(i.e. when 5–7 digits follow the letters), otherwise the whole run must have
exactly 4 digits. -/
def innerMatch (s : List Char) : Option (List Char × List Char × List Char) :=
  match s with
  | c1 :: c2 :: rest =>
    if isDig c1 && isDig c2 then
      let ls := rest.takeWhile isLet
      let r1 := rest.dropWhile isLet
      if (1 ≤ ls.length && ls.length ≤ 2) && r1.all isDig then
        if 5 ≤ r1.length && r1.length ≤ 7 then
          some ([c1, c2], ls ++ r1.take 1, r1.drop 1)
        else if r1.length = 4 then some ([c1, c2], ls, r1)
        else none
      else none
    else none
  | _ => none

/-- The serial-formatting branch of `normalize_plate` (`formatted_num`). -/
def fmtNum (num : List Char) : List Char :=
  if num.length = 4 then num.take 2 ++ '.' :: num.drop 2
  else if num.length = 5 then num.take 2 ++ '.' :: num.drop 3
  else if num.length = 6 then num.take 3 ++ '.' :: num.drop 3
  else num

/-- `normalize_plate` on a character list. -/
def normCore (l : List Char) : List Char :=
  let s := stripU l
  match innerMatch s with
  | none => s
  | some (p, ser, num) => p ++ '-' :: (ser ++ ' ' :: fmtNum num)

/-- `normalize_plate` from `app.py`. -/
def normalize_plate (raw : String) : String := ⟨normCore raw.data⟩

/-! ## The canonical-grammar validator
`re.fullmatch(r"\d{2}-[A-Z]{1,2}\d?\s+\d{2,3}\.\d{2,3}", p)` -/

/-- The `\s+\d{2,3}\.\d{2,3}` tail of the validator (a full-string match, so
the digit runs on either side of the dot must be exactly the maximal runs and
the string must end after the second run). -/
def canonTail (r : List Char) : Bool :=
  let sp := r.takeWhile isSpacePy
  let r2 := r.dropWhile isSpacePy
  (1 ≤ sp.length) &&
    (let a := r2.takeWhile isDig
     let r3 := r2.dropWhile isDig
     (2 ≤ a.length && a.length ≤ 3) &&
       match r3 with
       | c :: r4 =>
         (c == '.') &&
           (let b := r4.takeWhile isDig
            let r5 := r4.dropWhile isDig
            (2 ≤ b.length && b.length ≤ 3) && r5.isEmpty)
       | [] => false)

/-- After the series letters: the greedy optional series digit `\d?` followed
by `canonTail`. -/
def canonSeriesRest (r : List Char) : Bool :=
  match r with
  | d :: r2 => if isDig d then canonTail r2 else canonTail r
  | [] => false

/-- Full-string decision procedure for the canonical grammar
`\d{2}-[A-Z]{1,2}\d?\s+\d{2,3}\.\d{2,3}`. -/
def canonMatch : List Char → Bool
  | c1 :: c2 :: h :: rest =>
    isDig c1 && isDig c2 && (h == '-') &&
      (let ls := rest.takeWhile isLet
       let r1 := rest.dropWhile isLet
       (1 ≤ ls.length && ls.length ≤ 2) && canonSeriesRest r1)
  | _ => false

/-! ## `dedupe_preserve_order` -/

/-- The loop of `dedupe_preserve_order`, with the `seen` set made explicit as
the list of strings already emitted. -/
def dedupeGo (seen : List String) : List String → List String
  | [] => []
  | x :: xs =>
    if x ≠ "" ∧ x ∉ seen then x :: dedupeGo (x :: seen) xs
    else dedupeGo seen xs

/-- `dedupe_preserve_order` from `app.py`: drop falsy (empty) strings and
keep the first occurrence of each distinct string. -/
def dedupe_preserve_order (items : List String) : List String := dedupeGo [] items

/-! ## Code-fence stripping and `str.strip` -/

/-- Python `str.strip()` (ASCII whitespace model). -/
def pyStrip (l : List Char) : List Char :=
  ((l.dropWhile isSpacePy).reverse.dropWhile isSpacePy).reverse

/-- Letters accepted by the language tag `[a-zA-Z]*` of the opening fence. -/
def isAsciiAlpha (c : Char) : Bool := isLet c || isLowerAscii c

/-- `re.sub(r"^```[a-zA-Z]*\n?", "", txt)`: the pattern is anchored at the
start of the string, so at most one occurrence is removed. -/
def stripOpenFence : List Char → List Char
  | '`' :: '`' :: '`' :: rest =>
    let r := rest.dropWhile isAsciiAlpha
    match r with
    | '\n' :: r2 => r2
    | _ => r
  | l => l

/-- `re.sub(r"\n?```$", "", txt)`: without `re.MULTILINE`, `$` matches at the
end of the string or just before a single trailing newline, so the sub removes
a final ```` ``` ```` (with an optional preceding newline), possibly followed
by one trailing newline which is kept. -/
def stripCloseFence (l : List Char) : List Char :=
  match l.reverse with
  | '\n' :: '`' :: '`' :: '`' :: r =>
    (match r with | '\n' :: r2 => r2 | _ => r).reverse ++ ['\n']
  | '`' :: '`' :: '`' :: r =>
    (match r with | '\n' :: r2 => r2 | _ => r).reverse
  | _ => l

/-- Lines 71–78 of `app.py`: `txt = (resp.text or "").strip()` followed by the
two fence-removing substitutions and a final `.strip()`. -/
def cleanText (raw : List Char) : List Char :=
  pyStrip (stripCloseFence (stripOpenFence (pyStrip raw)))

/-! ## The fallback scanner `FALLBACK_REGEX.finditer`
Pattern: `(\d{2})\s*[- ]?\s*([A-Z]{1,2}\d?)\s*[- ]?\s*(\d{4,6})`. -/

/-- Matches `\s*[- ]?\s*(\d{4,6})` at the head of `l`: the separator fragment
must absorb the whole run of whitespace/hyphen characters (the next letterless
group starts with a digit), and can contain at most one hyphen; then a digit
run of length at least 4 follows, of which the greedy `\d{4,6}` captures the
first six at most.  Returns the captured group and the rest of the text. -/
def grabDigits (l : List Char) : Option (List Char × List Char) :=
  let sep := l.takeWhile sepChar
  let r := l.dropWhile sepChar
  if sep.count '-' ≤ 1 then
    let run := r.takeWhile isDig
    let r' := r.dropWhile isDig
    if 4 ≤ run.length then some (run.take 6, run.drop 6 ++ r') else none
  else none

/-- Attempts a match of `FALLBACK_REGEX` anchored at the head of `l`, with the
backtracking priorities of the Python engine: the separator fragments must
absorb the full whitespace/hyphen runs (at most one hyphen each), the series
takes the whole leading letter run (1 or 2 letters; a longer run cannot
match), and the greedy optional series digit is taken exactly when the
remainder still matches `\s*[- ]?\s*\d{4,6}`.  Returns the three groups and
the unconsumed rest. -/
def matchAt (l : List Char) : Option ((List Char × List Char × List Char) × List Char) :=
  match l with
  | c1 :: c2 :: rest =>
    if isDig c1 && isDig c2 then
      let sep1 := rest.takeWhile sepChar
      let r1 := rest.dropWhile sepChar
      if sep1.count '-' ≤ 1 then
        let ls := r1.takeWhile isLet
        let r2 := r1.dropWhile isLet
        if 1 ≤ ls.length && ls.length ≤ 2 then
          match r2 with
          | d :: r3 =>
            if isDig d then
              match grabDigits r3 with
              | some (g3, rest') => some (([c1, c2], ls ++ [d], g3), rest')
              | none =>
                match grabDigits r2 with
                | some (g3, rest') => some (([c1, c2], ls, g3), rest')
                | none => none
            else
              match grabDigits r2 with
              | some (g3, rest') => some (([c1, c2], ls, g3), rest')
              | none => none
          | [] => none
        else none
      else none
    else none
  | _ => none

/-- The scanning loop of `finditer`: try a match at every position, emit the
groups of each (non-overlapping) match and resume after its end.  `fuel` is
initialised with the text length, which every reachable call preserves as an
upper bound of the remaining text (each match consumes at least seven
characters). -/
def finditerGo : Nat → List Char → List (List Char × List Char × List Char)
  | 0, _ => []
  | _, [] => []
  | Nat.succ fuel, c :: cs =>
    match matchAt (c :: cs) with
    | some (g, rest) => g :: finditerGo fuel rest
    | none => finditerGo fuel cs

/-- `FALLBACK_REGEX.finditer(U)` with the groups of each match. -/
def fallbackMatches (l : List Char) : List (List Char × List Char × List Char) :=
  finditerGo l.length l

/-! ## `json.loads`
An executable model of the strict JSON reader used by `json.loads` (plus the
CPython extensions `NaN`, `Infinity`, `-Infinity`).  The pipeline only ever
asks whether the whole text is a JSON document whose top-level value is an
array, and what `str(x)` gives for each element. -/

/-- JSON values.  Numbers keep their lexeme (and the specials are stored as
the lexemes Python would print for them). -/
inductive Json where
  | null : Json
  | bool : Bool → Json
  | num : List Char → Json
  | str : List Char → Json
  | arr : List Json → Json
  | obj : List (List Char × Json) → Json

/-- JSON insignificant whitespace. -/
def isJsonWs (c : Char) : Bool := c = ' ' || c = '\t' || c = '\n' || c = '\r'

/-- Skip insignificant whitespace. -/
def skipWs (l : List Char) : List Char := l.dropWhile isJsonWs

/-- Value of one hex digit. -/
def hexVal (c : Char) : Option Nat :=
  if isDig c then some (c.toNat - 48)
  else if 97 ≤ c.toNat && c.toNat ≤ 102 then some (c.toNat - 87)
  else if 65 ≤ c.toNat && c.toNat ≤ 70 then some (c.toNat - 55)
  else none

/-- Single-character escapes of JSON strings. -/
def escChar (c : Char) : Option Char :=
  if c = '"' then some '"'
  else if c = '\\' then some '\\'
  else if c = '/' then some '/'
  else if c = 'b' then some '\x08'
  else if c = 'f' then some '\x0c'
  else if c = 'n' then some '\n'
  else if c = 'r' then some '\x0d'
  else if c = 't' then some '\t'
  else none

/-- Reads the body of a JSON string after the opening quote; returns the
decoded character list and the rest after the closing quote.  Control
characters below `0x20` are rejected, escapes are decoded (`\uXXXX` to the
code point, without surrogate pairing). -/
def jsonStr : List Char → Option (List Char × List Char)
  | [] => none
  | '"' :: rest => some ([], rest)
  | '\\' :: 'u' :: h1 :: h2 :: h3 :: h4 :: rest => do
    let v1 ← hexVal h1
    let v2 ← hexVal h2
    let v3 ← hexVal h3
    let v4 ← hexVal h4
    let (s, r) ← jsonStr rest
    some (Char.ofNat (((v1 * 16 + v2) * 16 + v3) * 16 + v4) :: s, r)
  | '\\' :: c :: rest => do
    let e ← escChar c
    let (s, r) ← jsonStr rest
    some (e :: s, r)
  | c :: rest =>
    if c.toNat < 32 then none
    else do
      let (s, r) ← jsonStr rest
      some (c :: s, r)

/-- Reads the integer part of a number after the optional sign: `0` or a
nonzero digit followed by a digit run (strict JSON rejects leading zeros). -/
def jsonInt (l : List Char) : Option (List Char × List Char) :=
  match l with
  | '0' :: rest => some (['0'], rest)
  | c :: _ =>
    if isDig c then some (l.takeWhile isDig, l.dropWhile isDig) else none
  | [] => none

/-- Reads an optional fraction part `.` followed by one or more digits. -/
def jsonFrac (l : List Char) : Option (List Char × List Char) :=
  match l with
  | '.' :: rest =>
    let ds := rest.takeWhile isDig
    if ds.length = 0 then none else some ('.' :: ds, rest.dropWhile isDig)
  | _ => some ([], l)

/-- Reads an optional exponent part `e`/`E`, optional sign, digits. -/
def jsonExp (l : List Char) : Option (List Char × List Char) :=
  match l with
  | e :: rest =>
    if e = 'e' || e = 'E' then
      let (sg, r2) := match rest with
        | '+' :: r => (['+'], r)
        | '-' :: r => (['-'], r)
        | r => ([], r)
      let ds := r2.takeWhile isDig
      if ds.length = 0 then none
      else some (e :: (sg ++ ds), r2.dropWhile isDig)
    else some ([], l)
  | [] => some ([], l)

/-- Reads a JSON number, returning its lexeme. -/
def jsonNum (l : List Char) : Option (List Char × List Char) := do
  let (sg, l1) := match l with
    | '-' :: r => (['-'], r)
    | r => ([], r)
  let (ip, l2) ← jsonInt l1
  let (fp, l3) ← jsonFrac l2
  let (ep, l4) ← jsonExp l3
  some (sg ++ ip ++ fp ++ ep, l4)

mutual

/-- Reads one JSON value at the head of `l` (whitespace already skipped). -/
def jsonValue : Nat → List Char → Option (Json × List Char)
  | 0, _ => none
  | Nat.succ fuel, l =>
    match l with
    | '{' :: rest =>
      (jsonFields fuel true (skipWs rest)).map fun (kvs, r) => (Json.obj kvs, r)
    | '[' :: rest =>
      (jsonElems fuel true (skipWs rest)).map fun (xs, r) => (Json.arr xs, r)
    | '"' :: rest => (jsonStr rest).map fun (s, r) => (Json.str s, r)
    | 't' :: 'r' :: 'u' :: 'e' :: rest => some (Json.bool true, rest)
    | 'f' :: 'a' :: 'l' :: 's' :: 'e' :: rest => some (Json.bool false, rest)
    | 'n' :: 'u' :: 'l' :: 'l' :: rest => some (Json.null, rest)
    | 'N' :: 'a' :: 'N' :: rest => some (Json.num ['n', 'a', 'n'], rest)
    | 'I' :: 'n' :: 'f' :: 'i' :: 'n' :: 'i' :: 't' :: 'y' :: rest =>
      some (Json.num ['i', 'n', 'f'], rest)
    | '-' :: 'I' :: 'n' :: 'f' :: 'i' :: 'n' :: 'i' :: 't' :: 'y' :: rest =>
      some (Json.num ['-', 'i', 'n', 'f'], rest)
    | _ => (jsonNum l).map fun (lex, r) => (Json.num lex, r)

/-- Reads the elements of an array after `[` (whitespace skipped); `first`
records whether a closing `]` is still allowed immediately (empty array). -/
def jsonElems : Nat → Bool → List Char → Option (List Json × List Char)
  | 0, _, _ => none
  | Nat.succ fuel, first, l =>
    match first, l with
    | true, ']' :: r => some ([], r)
    | _, _ => do
      let (v, r) ← jsonValue fuel l
      match skipWs r with
      | ',' :: r2 => do
        let (vs, r3) ← jsonElems fuel false (skipWs r2)
        some (v :: vs, r3)
      | ']' :: r2 => some ([v], r2)
      | _ => none

/-- Reads the fields of an object after `{` (whitespace skipped). -/
def jsonFields : Nat → Bool → List Char → Option (List (List Char × Json) × List Char)
  | 0, _, _ => none
  | Nat.succ fuel, first, l =>
    match first, l with
    | true, '}' :: r => some ([], r)
    | _, '"' :: r0 => do
      let (k, r1) ← jsonStr r0
      match skipWs r1 with
      | ':' :: r2 => do
        let (v, r3) ← jsonValue fuel (skipWs r2)
        match skipWs r3 with
        | ',' :: r4 => do
          let (kvs, r5) ← jsonFields fuel false (skipWs r4)
          some ((k, v) :: kvs, r5)
        | '}' :: r4 => some ([(k, v)], r4)
        | _ => none
      | _ => none
    | _, _ => none

end

/-- `json.loads`: read one value surrounded by optional whitespace; the whole
text must be consumed.  The fuel bound `2 * length + 4` dominates the number
of reader calls, each pair of which consumes at least one character. -/
def json_loads (l : List Char) : Option Json :=
  match jsonValue (2 * l.length + 4) (skipWs l) with
  | some (v, r) => if (skipWs r).isEmpty then some v else none
  | none => none

/-! ## `str(x)` on parsed JSON elements -/

/-- Lexeme test: the number is an integer literal (no fraction/exponent and
not one of the specials). -/
def jsonIsInt (lex : List Char) : Bool := lex.all fun c => isDig c || c = '-'

/-- Python `str` of the number: integers print as their (canonical) lexeme
with `-0` collapsing to `0`; the rendering of floats is modelled by their
lexeme (a float's repr is never a canonical plate, so the pipeline never
distinguishes this from the exact rendering). -/
def pyStrNum (lex : List Char) : List Char :=
  if jsonIsInt lex then (if lex = ['-', '0'] then ['0'] else lex) else lex

/-- `", "`-separated concatenation. -/
def joinComma : List (List Char) → List Char
  | [] => []
  | [x] => x
  | x :: y :: xs => x ++ ',' :: ' ' :: joinComma (y :: xs)

mutual

/-- Python `repr` of a parsed JSON element (used inside containers); string
quoting is modelled with plain single quotes. -/
def pyRepr : Json → List Char
  | Json.null => 'N' :: 'o' :: 'n' :: 'e' :: []
  | Json.bool true => 'T' :: 'r' :: 'u' :: 'e' :: []
  | Json.bool false => 'F' :: 'a' :: 'l' :: 's' :: 'e' :: []
  | Json.num lex => pyStrNum lex
  | Json.str s => '\'' :: (s ++ ['\''])
  | Json.arr xs => '[' :: (joinComma (pyReprList xs) ++ [']'])
  | Json.obj kvs => '\x7b' :: (joinComma (pyReprFields kvs) ++ ['\x7d'])

/-- `repr` of each element of a list. -/
def pyReprList : List Json → List (List Char)
  | [] => []
  | x :: xs => pyRepr x :: pyReprList xs

/-- `repr` of each `key: value` field of an object. -/
def pyReprFields : List (List Char × Json) → List (List Char)
  | [] => []
  | (k, v) :: xs => ('\'' :: (k ++ '\'' :: ':' :: ' ' :: pyRepr v)) :: pyReprFields xs

end

/-- Python `str(x)`: same as `repr` except that a top-level string prints
unquoted. -/
def pyStr (j : Json) : List Char :=
  match j with
  | Json.str s => s
  | _ => pyRepr j

/-! ## The parsing pipeline of `extract_text_from_image` (lines 71–97) -/

/-- The canonical-grammar filter applied to both candidate lists
(`re.fullmatch(r"\d{2}-[A-Z]{1,2}\d?\s+\d{2,3}\.\d{2,3}", p)`). -/
def canonOk (p : String) : Bool := canonMatch p.data

/-- Step 1 of the pipeline: parse the cleaned text as JSON; when the
top-level value is an array, normalize the `str` of every element and keep
the canonical results.  A parse failure or a non-array value contributes zero
structured candidates. -/
def structuredCands (txt : List Char) : List String :=
  match json_loads txt with
  | some (Json.arr xs) =>
    (xs.map fun x => normalize_plate ⟨pyStr x⟩).filter canonOk
  | _ => []

/-- Step 2 (fallback): scan the upper-cased cleaned text with
`FALLBACK_REGEX`, join the groups of every match and normalize; keep the
canonical results. -/
def fallbackCands (txt : List Char) : List String :=
  ((fallbackMatches (txt.map pyToUpper)).map
      fun g => normalize_plate ⟨g.1 ++ g.2.1 ++ g.2.2⟩).filter canonOk

/-- The candidate stream handed to `dedupe_preserve_order`: the structured
candidates when there is at least one, otherwise the fallback candidates. -/
def candidates (raw : String) : List String :=
  let txt := cleanText raw.data
  let st := structuredCands txt
  if st = [] then fallbackCands txt else st

/-- The parse portion of `extract_text_from_image`: raw model text to the
final plate list. -/
def parsePipeline (raw : String) : List String :=
  dedupe_preserve_order (candidates raw)

/-! ## The retry loop of `extract_text_from_image` (lines 67–105) -/

/-- `DEFAULT_RETRIES` from `app.py`. -/
def DEFAULT_RETRIES : Nat := 2

/-- One run of the `for attempt in range(DEFAULT_RETRIES)` loop.  The body's
effect is abstracted as `outcome attempt`: `Except.ok txt` when the model call
succeeds with raw text `txt` (the parse pipeline then returns), and
`Except.error ()` when it raises.  The returned list of rationals records the
`time.sleep(1.5)` backoffs performed, in time-units. -/
def retryLoop (outcome : Nat → Except Unit String) (attempt : Nat)
    (sleeps : List ℚ) : List String × List ℚ :=
  if _h : attempt < DEFAULT_RETRIES then
    match outcome attempt with
    | Except.ok t => (parsePipeline t, sleeps)
    | Except.error _ =>
      if attempt < DEFAULT_RETRIES - 1 then
        retryLoop outcome (attempt + 1) (sleeps ++ [(3 : ℚ) / 2])
      else ([], sleeps)
  else ([], sleeps)
termination_by DEFAULT_RETRIES - attempt
decreasing_by omega

/-- `extract_text_from_image`, as a function of the abstract sequence of
model-call outcomes: the returned plate list together with the trace of
backoff delays. -/
def extract_text_from_image (outcome : Nat → Except Unit String) :
    List String × List ℚ :=
  retryLoop outcome 0 []

/-! ## Basic facts about the character classes -/

theorem isDig_not_isLet {c : Char} (h : isDig c = true) : isLet c = false := by
  simp only [isDig, Bool.and_eq_true, decide_eq_true_eq] at h
  simp only [isLet, Bool.and_eq_false_iff, decide_eq_false_iff_not]
  omega

theorem isDig_not_isSpacePy {c : Char} (h : isDig c = true) :
    isSpacePy c = false := by
  cases hsp : isSpacePy c
  · rfl
  · exfalso
    simp only [isSpacePy, Bool.or_eq_true, decide_eq_true_eq] at hsp
    rcases hsp with ((((rfl | rfl) | rfl) | rfl) | rfl) | rfl <;>
      exact absurd h (by decide)

theorem pyToUpper_of_upperAlnum {c : Char} (h : isUpperAlnum c = true) :
    pyToUpper c = c := by
  simp only [isUpperAlnum, isDig, isLet, Bool.or_eq_true, Bool.and_eq_true,
    decide_eq_true_eq] at h
  simp only [pyToUpper, isLowerAscii, Bool.and_eq_true, decide_eq_true_eq]
  rw [if_neg]
  omega

theorem upperAlnum_of_isDig {c : Char} (h : isDig c = true) :
    isUpperAlnum c = true := by
  simp [isUpperAlnum, h]

theorem upperAlnum_of_isLet {c : Char} (h : isLet c = true) :
    isUpperAlnum c = true := by
  simp [isUpperAlnum, h]

theorem ne_of_upperAlnum {c : Char} (h : isUpperAlnum c = true) :
    c ≠ '-' ∧ c ≠ ' ' ∧ c ≠ '.' := by
  refine ⟨?_, ?_, ?_⟩ <;> rintro rfl <;> exact absurd h (by decide)

/-! ## Span lemmas: `takeWhile`/`dropWhile` across a class boundary -/

theorem span_append {p : Char → Bool} {a b : List Char}
    (ha : ∀ c ∈ a, p c = true) (hb : ∀ x, b.head? = some x → p x = false) :
    (a ++ b).takeWhile p = a ∧ (a ++ b).dropWhile p = b := by
  induction a with
  | nil =>
    simp only [List.nil_append]
    cases b with
    | nil => simp
    | cons x xs =>
      have := hb x rfl
      simp [List.takeWhile_cons, List.dropWhile_cons, this]
  | cons c cs ih =>
    have hc := ha c (by simp)
    have ih' := ih (fun d hd => ha d (by simp [hd]))
    simp [List.takeWhile_cons, List.dropWhile_cons, hc, ih'.1, ih'.2]

/-! ## Facts about `dedupe_preserve_order` -/

theorem mem_dedupeGo {seen l : List String} {x : String} :
    x ∈ dedupeGo seen l ↔ x ∈ l ∧ x ≠ "" ∧ x ∉ seen := by
  induction l generalizing seen with
  | nil => simp [dedupeGo]
  | cons y ys ih =>
    by_cases h : y ≠ "" ∧ y ∉ seen
    · simp only [dedupeGo, if_pos h, List.mem_cons, ih]
      constructor
      · rintro (rfl | ⟨hy, hne, hns⟩)
        · exact ⟨Or.inl rfl, h.1, h.2⟩
        · exact ⟨Or.inr hy, hne, fun hs => hns (Or.inr hs)⟩
      · rintro ⟨(rfl | hy), hne, hns⟩
        · exact Or.inl rfl
        · by_cases hxy : x = y
          · exact Or.inl hxy
          · exact Or.inr ⟨hy, hne, by simp [hxy, hns]⟩
    · simp only [dedupeGo, if_neg h, List.mem_cons, ih]
      constructor
      · rintro ⟨hy, hne, hns⟩
        exact ⟨Or.inr hy, hne, hns⟩
      · rintro ⟨(rfl | hy), hne, hns⟩
        · exact absurd ⟨hne, hns⟩ h
        · exact ⟨hy, hne, hns⟩

theorem nodup_dedupeGo (seen l : List String) : (dedupeGo seen l).Nodup := by
  induction l generalizing seen with
  | nil => simp [dedupeGo]
  | cons y ys ih =>
    by_cases h : y ≠ "" ∧ y ∉ seen
    · simp only [dedupeGo, if_pos h]
      refine List.Nodup.cons ?_ (ih _)
      intro hy
      have := (mem_dedupeGo.mp hy).2.2
      simp at this
    · simpa only [dedupeGo, if_neg h] using ih seen

theorem pairwise_dedupeGo (seen l : List String) :
    (dedupeGo seen l).Pairwise fun a b => l.indexOf a < l.indexOf b := by
  induction l generalizing seen with
  | nil => simp [dedupeGo]
  | cons y ys ih =>
    have shift : ∀ a b : String, a ≠ y → b ≠ y → ys.indexOf a < ys.indexOf b →
        (y :: ys).indexOf a < (y :: ys).indexOf b := by
      intro a b ha hb hlt
      rw [List.indexOf_cons_ne _ (fun e => ha e.symm),
        List.indexOf_cons_ne _ (fun e => hb e.symm)]
      omega
    by_cases h : y ≠ "" ∧ y ∉ seen
    · simp only [dedupeGo, if_pos h]
      refine List.Pairwise.cons ?_ ?_
      · intro b hb
        have hbne : b ≠ y := by
          have := (mem_dedupeGo.mp hb).2.2
          simp only [List.mem_cons, not_or] at this
          exact this.1
        rw [List.indexOf_cons_self, List.indexOf_cons_ne _ (fun e => hbne e.symm)]
        omega
      · refine (ih (y :: seen)).imp_of_mem ?_
        intro a b hma hmb hlt
        have hane : a ≠ y := by
          have := (mem_dedupeGo.mp hma).2.2
          simp only [List.mem_cons, not_or] at this
          exact this.1
        have hbne : b ≠ y := by
          have := (mem_dedupeGo.mp hmb).2.2
          simp only [List.mem_cons, not_or] at this
          exact this.1
        exact shift a b hane hbne hlt
    · simp only [dedupeGo, if_neg h]
      refine (ih seen).imp_of_mem ?_
      intro a b hma hmb hlt
      push_neg at h
      have hane : a ≠ y := by
        obtain ⟨-, hna, hns⟩ := mem_dedupeGo.mp hma
        intro e
        subst e
        by_cases he : a = ""
        · exact hna he
        · exact hns (h he)
      have hbne : b ≠ y := by
        obtain ⟨-, hnb, hns⟩ := mem_dedupeGo.mp hmb
        intro e
        subst e
        by_cases he : b = ""
        · exact hnb he
        · exact hns (h he)
      exact shift a b hane hbne hlt

/-! ## Facts about `stripU` -/

theorem stripU_all {l : List Char} (h : ∀ c ∈ l, isUpperAlnum c = true) :
    stripU l = l := by
  unfold stripU
  rw [List.map_congr_left fun c hc => pyToUpper_of_upperAlnum (h c hc)]
  simp only [List.map_id']
  exact List.filter_eq_self.mpr h

theorem stripU_append (a b : List Char) :
    stripU (a ++ b) = stripU a ++ stripU b := by
  simp [stripU]

theorem stripU_cons (c : Char) (l : List Char) :
    stripU (c :: l) =
      if isUpperAlnum (pyToUpper c) then pyToUpper c :: stripU l else stripU l := by
  simp [stripU, List.filter_cons]

/-! ## Characterisation of `innerMatch` -/

theorem innerMatch_append4 (d1 d2 : Char) (L ds : List Char)
    (h1 : isDig d1 = true) (h2 : isDig d2 = true)
    (hL : ∀ c ∈ L, isLet c = true) (hL1 : 1 ≤ L.length) (hL2 : L.length ≤ 2)
    (hds : ∀ c ∈ ds, isDig c = true) (hlen : ds.length = 4) :
    innerMatch (d1 :: d2 :: (L ++ ds)) = some ([d1, d2], L, ds) := by
  cases ds with
  | nil => simp at hlen
  | cons e es =>
    have hes : es.length = 3 := by simpa using hlen
    have hhead : isLet e = false := isDig_not_isLet (hds e (by simp))
    obtain ⟨ht, hd⟩ := span_append (p := isLet) (b := e :: es) hL
      (by intro x hx; rw [List.head?_cons] at hx; cases hx; exact hhead)
    have hall : (e :: es).all isDig = true := List.all_eq_true.mpr hds
    simp [innerMatch, ht, hd, hall, hes, h1, h2, hL1, hL2]

theorem innerMatch_append_absorb (d1 d2 e : Char) (L es : List Char)
    (h1 : isDig d1 = true) (h2 : isDig d2 = true)
    (hL : ∀ c ∈ L, isLet c = true) (hL1 : 1 ≤ L.length) (hL2 : L.length ≤ 2)
    (he : isDig e = true) (hes : ∀ c ∈ es, isDig c = true)
    (hlen1 : 4 ≤ es.length) (hlen2 : es.length ≤ 6) :
    innerMatch (d1 :: d2 :: (L ++ e :: es)) = some ([d1, d2], L ++ [e], es) := by
  have hhead : isLet e = false := isDig_not_isLet he
  obtain ⟨ht, hd⟩ := span_append (p := isLet) (b := e :: es) hL
    (by intro x hx; rw [List.head?_cons] at hx; cases hx; exact hhead)
  have hall : (e :: es).all isDig = true := by
    rw [List.all_cons, he, Bool.true_and]
    exact List.all_eq_true.mpr hes
  have h5 : 5 ≤ es.length + 1 := by omega
  have h7 : es.length + 1 ≤ 7 := by omega
  simp [innerMatch, ht, hd, hall, h1, h2, hL1, hL2, h5, h7]

theorem innerMatch_sound {s p ser num : List Char}
    (h : innerMatch s = some (p, ser, num)) :
    ∃ c1 c2 L, p = [c1, c2] ∧ isDig c1 = true ∧ isDig c2 = true ∧
      (∀ c ∈ L, isLet c = true) ∧ 1 ≤ L.length ∧ L.length ≤ 2 ∧
      (∀ c ∈ num, isDig c = true) ∧
      s = p ++ ser ++ num ∧
      ((ser = L ∧ num.length = 4) ∨
        ∃ d, isDig d = true ∧ ser = L ++ [d] ∧ 4 ≤ num.length ∧ num.length ≤ 6) := by
  match s with
  | [] => simp [innerMatch] at h
  | [c] => simp [innerMatch] at h
  | c1 :: c2 :: rest =>
    have hrest : rest.takeWhile isLet ++ rest.dropWhile isLet = rest :=
      List.takeWhile_append_dropWhile isLet rest
    have hlsLet : ∀ c ∈ rest.takeWhile isLet, isLet c = true :=
      fun c hc => List.mem_takeWhile_imp hc
    rw [innerMatch] at h
    by_cases hdig : (isDig c1 && isDig c2) = true
    case neg => rw [if_neg hdig] at h; exact absurd h (by simp)
    rw [if_pos hdig] at h
    simp only [Bool.and_eq_true] at hdig
    by_cases hguard :
        ((1 ≤ (rest.takeWhile isLet).length && (rest.takeWhile isLet).length ≤ 2) &&
          (rest.dropWhile isLet).all isDig) = true
    case neg => rw [if_neg hguard] at h; exact absurd h (by simp)
    rw [if_pos hguard] at h
    simp only [Bool.and_eq_true, decide_eq_true_eq] at hguard
    obtain ⟨⟨hl1, hl2⟩, hall⟩ := hguard
    have hr1dig : ∀ c ∈ rest.dropWhile isLet, isDig c = true := List.all_eq_true.mp hall
    by_cases habs :
        (decide (5 ≤ (rest.dropWhile isLet).length) &&
          decide ((rest.dropWhile isLet).length ≤ 7)) = true
    · rw [if_pos habs] at h
      simp only [Bool.and_eq_true, decide_eq_true_eq] at habs
      cases hr : rest.dropWhile isLet with
      | nil => rw [hr] at habs; simp at habs
      | cons d ds =>
        rw [hr] at h hrest hr1dig habs
        have htake : (d :: ds).take 1 = [d] := rfl
        have hdrop : (d :: ds).drop 1 = ds := rfl
        rw [htake, hdrop] at h
        simp only [Option.some.injEq, Prod.mk.injEq] at h
        obtain ⟨hp, hser, hnum⟩ := h
        simp only [List.length_cons] at habs
        refine ⟨c1, c2, rest.takeWhile isLet, hp.symm, hdig.1, hdig.2, hlsLet,
          hl1, hl2, ?_, ?_, ?_⟩
        · intro c hc
          exact hr1dig c (List.mem_cons_of_mem _ (hnum ▸ hc))
        · rw [← hp, ← hser, ← hnum]
          calc c1 :: c2 :: rest = [c1, c2] ++ rest := rfl
            _ = [c1, c2] ++ (List.takeWhile isLet rest ++ d :: ds) := by rw [hrest]
            _ = [c1, c2] ++ (List.takeWhile isLet rest ++ [d]) ++ ds := by simp
        · refine Or.inr ⟨d, hr1dig d (List.mem_cons_self _ _), hser.symm, ?_, ?_⟩
            <;> rw [← hnum] <;> omega
    · rw [if_neg habs] at h
      by_cases h4 : (rest.dropWhile isLet).length = 4
      · rw [if_pos h4] at h
        simp only [Option.some.injEq, Prod.mk.injEq] at h
        obtain ⟨hp, hser, hnum⟩ := h
        refine ⟨c1, c2, rest.takeWhile isLet, hp.symm, hdig.1, hdig.2, hlsLet,
          hl1, hl2, ?_, ?_, ?_⟩
        · intro c hc
          exact hr1dig c (hnum ▸ hc)
        · rw [← hp, ← hser, ← hnum]
          calc c1 :: c2 :: rest = [c1, c2] ++ rest := rfl
            _ = [c1, c2] ++ (List.takeWhile isLet rest ++ List.dropWhile isLet rest) := by
                  rw [hrest]
            _ = [c1, c2] ++ List.takeWhile isLet rest ++ List.dropWhile isLet rest := by
                  simp
        · exact Or.inl ⟨hser.symm, by rw [← hnum]; exact h4⟩
      · rw [if_neg h4] at h
        exact absurd h (by simp)

/-! ## `fmtNum` on split serials -/

theorem fmtNum_of_len4 {a b : List Char} (ha : a.length = 2) (hb : b.length = 2) :
    fmtNum (a ++ b) = a ++ '.' :: b := by
  have hlen : (a ++ b).length = 4 := by simp [ha, hb]
  rw [fmtNum, if_pos hlen, List.take_left' ha, List.drop_left' ha]

theorem fmtNum_of_len6 {a b : List Char} (ha : a.length = 3) (hb : b.length = 3) :
    fmtNum (a ++ b) = a ++ '.' :: b := by
  have hlen : (a ++ b).length = 6 := by simp [ha, hb]
  rw [fmtNum, if_neg (by omega), if_neg (by omega), if_pos hlen,
    List.take_left' ha, List.drop_left' ha]

/-! ## `stripU` on digit/letter blocks -/

theorem stripU_digits {a : List Char} (h : ∀ c ∈ a, isDig c = true) :
    stripU a = a :=
  stripU_all fun c hc => upperAlnum_of_isDig (h c hc)

theorem stripU_letters {a : List Char} (h : ∀ c ∈ a, isLet c = true) :
    stripU a = a :=
  stripU_all fun c hc => upperAlnum_of_isLet (h c hc)

/-- `stripU` of the display form of a plate: the hyphen, space and dot are
removed and the alphanumeric blocks survive unchanged. -/
theorem stripU_display (c1 c2 : Char) (L sdl a b : List Char)
    (h1 : isDig c1 = true) (h2 : isDig c2 = true)
    (hL : ∀ c ∈ L, isLet c = true) (hsdl : ∀ c ∈ sdl, isDig c = true)
    (ha : ∀ c ∈ a, isDig c = true) (hb : ∀ c ∈ b, isDig c = true) :
    stripU (c1 :: c2 :: '-' :: (L ++ sdl ++ ' ' :: (a ++ '.' :: b))) =
      c1 :: c2 :: (L ++ (sdl ++ (a ++ b))) := by
  have e : c1 :: c2 :: '-' :: (L ++ sdl ++ ' ' :: (a ++ '.' :: b)) =
      [c1, c2] ++ ['-'] ++ L ++ sdl ++ [' '] ++ a ++ ['.'] ++ b := by simp
  rw [e]
  repeat rw [stripU_append]
  rw [stripU_digits (by
    intro c hc
    simp only [List.mem_cons, List.not_mem_nil, or_false] at hc
    rcases hc with rfl | rfl
    · exact h1
    · exact h2)]
  rw [stripU_letters hL, stripU_digits hsdl, stripU_digits ha, stripU_digits hb]
  have hh : stripU ['-'] = [] := by decide
  have hs : stripU [' '] = [] := by decide
  have hc : stripU ['.'] = [] := by decide
  rw [hh, hs, hc]
  simp

/-- The central computation: `normCore` of a plate already in display form
`NN-SS A.B` (with a single space, the series split into letters plus an
optional digit, and the two digit groups of sizes `(2,2)`; or `(3,3)` when
the series carries a digit) returns the input unchanged. -/
theorem normCore_shape (c1 c2 : Char) (L : List Char) (sd : Option Char)
    (a b : List Char)
    (h1 : isDig c1 = true) (h2 : isDig c2 = true)
    (hL : ∀ c ∈ L, isLet c = true) (hL1 : 1 ≤ L.length) (hL2 : L.length ≤ 2)
    (hsd : ∀ d ∈ sd.toList, isDig d = true)
    (ha : ∀ c ∈ a, isDig c = true) (hb : ∀ c ∈ b, isDig c = true)
    (hshape : (sd = none ∧ a.length = 2 ∧ b.length = 2) ∨
      (sd.isSome = true ∧ ((a.length = 2 ∧ b.length = 2) ∨
        (a.length = 3 ∧ b.length = 3)))) :
    normCore (c1 :: c2 :: '-' :: (L ++ sd.toList ++ ' ' :: (a ++ '.' :: b))) =
      c1 :: c2 :: '-' :: (L ++ sd.toList ++ ' ' :: (a ++ '.' :: b)) := by
  have hab : ∀ c ∈ a ++ b, isDig c = true := by
    intro c hc
    rcases List.mem_append.mp hc with h | h
    · exact ha c h
    · exact hb c h
  simp only [normCore]
  rw [stripU_display c1 c2 L sd.toList a b h1 h2 hL hsd ha hb]
  rcases hshape with ⟨hnone, ha2, hb2⟩ | ⟨hsome, hlens⟩
  · subst hnone
    simp only [Option.toList_none, List.nil_append]
    rw [innerMatch_append4 c1 c2 L (a ++ b) h1 h2 hL hL1 hL2 hab
      (by simp [ha2, hb2])]
    show [c1, c2] ++ '-' :: (L ++ ' ' :: fmtNum (a ++ b)) = _
    rw [fmtNum_of_len4 ha2 hb2]
    simp
  · obtain ⟨d, rfl⟩ := Option.isSome_iff_exists.mp hsome
    simp only [Option.toList_some]
    have hd : isDig d = true := hsd d (by simp)
    have e : L ++ ([d] ++ (a ++ b)) = L ++ d :: (a ++ b) := by simp
    rw [e]
    rcases hlens with ⟨ha2, hb2⟩ | ⟨ha3, hb3⟩
    · rw [innerMatch_append_absorb c1 c2 d L (a ++ b) h1 h2 hL hL1 hL2 hd hab
        (by simp [ha2, hb2]) (by simp [ha2, hb2])]
      show [c1, c2] ++ '-' :: ((L ++ [d]) ++ ' ' :: fmtNum (a ++ b)) = _
      rw [fmtNum_of_len4 ha2 hb2]
      simp
    · rw [innerMatch_append_absorb c1 c2 d L (a ++ b) h1 h2 hL hL1 hL2 hd hab
        (by simp [ha3, hb3]) (by simp [ha3, hb3])]
      show [c1, c2] ++ '-' :: ((L ++ [d]) ++ ' ' :: fmtNum (a ++ b)) = _
      rw [fmtNum_of_len6 ha3 hb3]
      simp

/-! ## Idempotence of `normCore` -/

theorem normCore_idem (l : List Char) : normCore (normCore l) = normCore l := by
  have hstrip_all : ∀ c ∈ stripU l, isUpperAlnum c = true := by
    intro c hc
    exact List.of_mem_filter hc
  cases hm : innerMatch (stripU l) with
  | none =>
    have h1 : normCore l = stripU l := by simp only [normCore, hm]
    rw [h1]
    simp only [normCore, stripU_all hstrip_all, hm]
  | some t =>
    obtain ⟨p, ser, num⟩ := t
    obtain ⟨c1, c2, L, hp, hc1, hc2, hLlet, hL1, hL2, hnumdig, hdecomp, hcases⟩ :=
      innerMatch_sound hm
    have h1 : normCore l = p ++ '-' :: (ser ++ ' ' :: fmtNum num) := by
      simp only [normCore, hm]
    rw [h1, hp]
    have htakedig : ∀ n, ∀ c ∈ num.take n, isDig c = true :=
      fun n c hc => hnumdig c (List.take_subset _ _ hc)
    have hdropdig : ∀ n, ∀ c ∈ num.drop n, isDig c = true :=
      fun n c hc => hnumdig c (List.drop_subset _ _ hc)
    rcases hcases with ⟨hser, hlen⟩ | ⟨d, hd, hser, hge, hle⟩
    · rw [hser]
      have hfmt : fmtNum num = num.take 2 ++ '.' :: num.drop 2 := by
        rw [fmtNum, if_pos hlen]
      have e : [c1, c2] ++ '-' :: (L ++ ' ' :: fmtNum num) =
          c1 :: c2 :: '-' :: (L ++ (none : Option Char).toList ++
            ' ' :: (num.take 2 ++ '.' :: num.drop 2)) := by
        rw [hfmt]
        simp
      rw [e]
      exact normCore_shape c1 c2 L none _ _ hc1 hc2 hLlet hL1 hL2 (by simp)
        (htakedig 2) (hdropdig 2)
        (Or.inl ⟨rfl, by simp [hlen], by simp [hlen]⟩)
    · rw [hser]
      have hsd : ∀ x ∈ (some d).toList, isDig x = true := by
      -- the series digit is a digit
        intro x hx
        simp only [Option.toList_some, List.mem_cons, List.not_mem_nil,
          or_false] at hx
        subst hx
        exact hd
      have hnlen : num.length = 4 ∨ num.length = 5 ∨ num.length = 6 := by omega
      rcases hnlen with h4 | h5 | h6
      · have hfmt : fmtNum num = num.take 2 ++ '.' :: num.drop 2 := by
          rw [fmtNum, if_pos h4]
        have e : [c1, c2] ++ '-' :: ((L ++ [d]) ++ ' ' :: fmtNum num) =
            c1 :: c2 :: '-' :: (L ++ (some d).toList ++
              ' ' :: (num.take 2 ++ '.' :: num.drop 2)) := by
          rw [hfmt]
          simp
        rw [e]
        exact normCore_shape c1 c2 L (some d) _ _ hc1 hc2 hLlet hL1 hL2 hsd
          (htakedig 2) (hdropdig 2)
          (Or.inr ⟨rfl, Or.inl ⟨by simp [h4], by simp [h4]⟩⟩)
      · have hfmt : fmtNum num = num.take 2 ++ '.' :: num.drop 3 := by
          rw [fmtNum, if_neg (by omega), if_pos h5]
        have e : [c1, c2] ++ '-' :: ((L ++ [d]) ++ ' ' :: fmtNum num) =
            c1 :: c2 :: '-' :: (L ++ (some d).toList ++
              ' ' :: (num.take 2 ++ '.' :: num.drop 3)) := by
          rw [hfmt]
          simp
        rw [e]
        exact normCore_shape c1 c2 L (some d) _ _ hc1 hc2 hLlet hL1 hL2 hsd
          (htakedig 2) (hdropdig 3)
          (Or.inr ⟨rfl, Or.inl ⟨by simp [h5], by simp [h5]⟩⟩)
      · have hfmt : fmtNum num = num.take 3 ++ '.' :: num.drop 3 := by
          rw [fmtNum, if_neg (by omega), if_neg (by omega), if_pos h6]
        have e : [c1, c2] ++ '-' :: ((L ++ [d]) ++ ' ' :: fmtNum num) =
            c1 :: c2 :: '-' :: (L ++ (some d).toList ++
              ' ' :: (num.take 3 ++ '.' :: num.drop 3)) := by
          rw [hfmt]
          simp
        rw [e]
        exact normCore_shape c1 c2 L (some d) _ _ hc1 hc2 hLlet hL1 hL2 hsd
          (htakedig 3) (hdropdig 3)
          (Or.inr ⟨rfl, Or.inr ⟨by simp [h6], by simp [h6]⟩⟩)

/-! ## Membership in the candidate stream -/

theorem mem_structuredCands {txt : List Char} {x : String}
    (hx : x ∈ structuredCands txt) :
    canonOk x = true ∧ ∃ y, x = normalize_plate y := by
  unfold structuredCands at hx
  cases hj : json_loads txt with
  | none => rw [hj] at hx; simp at hx
  | some j =>
    rw [hj] at hx
    cases j with
    | arr xs =>
      obtain ⟨hmem, hok⟩ := List.mem_filter.mp hx
      obtain ⟨y, hy, rfl⟩ := List.mem_map.mp hmem
      exact ⟨hok, _, rfl⟩
    | null => simp at hx
    | bool b => simp at hx
    | num lex => simp at hx
    | str s => simp at hx
    | obj kvs => simp at hx

theorem mem_fallbackCands {txt : List Char} {x : String}
    (hx : x ∈ fallbackCands txt) :
    canonOk x = true ∧ ∃ y, x = normalize_plate y := by
  unfold fallbackCands at hx
  obtain ⟨hmem, hok⟩ := List.mem_filter.mp hx
  obtain ⟨g, hg, rfl⟩ := List.mem_map.mp hmem
  exact ⟨hok, _, rfl⟩

theorem mem_candidates {raw : String} {x : String} (hx : x ∈ candidates raw) :
    canonOk x = true ∧ ∃ y, x = normalize_plate y := by
  simp only [candidates] at hx
  split at hx
  · exact mem_fallbackCands hx
  · exact mem_structuredCands hx

/-! ## The space count of normalisation results -/

theorem count_space_zero_of_upperAlnum {xs : List Char}
    (h : ∀ c ∈ xs, isUpperAlnum c = true) : xs.count ' ' = 0 := by
  rw [List.count_eq_zero]
  intro hmem
  exact absurd (h ' ' hmem) (by decide)

theorem mem_fmtNum {num : List Char} {c : Char} (hc : c ∈ fmtNum num) :
    c ∈ num ∨ c = '.' := by
  rw [fmtNum] at hc
  split at hc
  · rcases List.mem_append.mp hc with h | h
    · exact Or.inl (List.take_subset _ _ h)
    · rcases List.mem_cons.mp h with rfl | h
      · exact Or.inr rfl
      · exact Or.inl (List.drop_subset _ _ h)
  · split at hc
    · rcases List.mem_append.mp hc with h | h
      · exact Or.inl (List.take_subset _ _ h)
      · rcases List.mem_cons.mp h with rfl | h
        · exact Or.inr rfl
        · exact Or.inl (List.drop_subset _ _ h)
    · split at hc
      · rcases List.mem_append.mp hc with h | h
        · exact Or.inl (List.take_subset _ _ h)
        · rcases List.mem_cons.mp h with rfl | h
          · exact Or.inr rfl
          · exact Or.inl (List.drop_subset _ _ h)
      · exact Or.inl hc

/-- When the result of `normCore` passes the canonical-grammar filter, it
contains exactly one space: the one that `normalize_plate` writes between the
series and the formatted serial.  (The non-matching branch of `normCore`
returns a string of bare alphanumerics, which can never pass the filter.) -/
theorem count_space_normCore {l : List Char}
    (h : canonMatch (normCore l) = true) : (normCore l).count ' ' = 1 := by
  have hstrip_all : ∀ c ∈ stripU l, isUpperAlnum c = true := by
    intro c hc
    exact List.of_mem_filter hc
  cases hm : innerMatch (stripU l) with
  | none =>
    exfalso
    have h1 : normCore l = stripU l := by simp only [normCore, hm]
    rw [h1] at h
    match hs : stripU l with
    | [] =>
      rw [hs] at h
      rw [show canonMatch [] = false from rfl] at h
      simp at h
    | [w] =>
      rw [hs] at h
      rw [show canonMatch [w] = false from rfl] at h
      simp at h
    | [w, v] =>
      rw [hs] at h
      rw [show canonMatch [w, v] = false from rfl] at h
      simp at h
    | x :: y :: z :: rest =>
      rw [hs] at h
      rw [canonMatch] at h
      simp only [Bool.and_eq_true, beq_iff_eq] at h
      have hz : isUpperAlnum z = true := hstrip_all z (by rw [hs]; simp)
      exact absurd h.1.2 (ne_of_upperAlnum hz).1
  | some t =>
    obtain ⟨p, ser, num⟩ := t
    obtain ⟨c1, c2, L, hp, hc1, hc2, hLlet, hL1, hL2, hnumdig, hdecomp, hcases⟩ :=
      innerMatch_sound hm
    have h1 : normCore l = p ++ '-' :: (ser ++ ' ' :: fmtNum num) := by
      simp only [normCore, hm]
    have hserAl : ∀ c ∈ ser, isUpperAlnum c = true := by
      intro c hc
      rcases hcases with ⟨hser, -⟩ | ⟨d, hd, hser, -, -⟩
      · exact upperAlnum_of_isLet (hLlet c (hser ▸ hc))
      · rw [hser] at hc
        rcases List.mem_append.mp hc with hin | hin
        · exact upperAlnum_of_isLet (hLlet c hin)
        · rcases List.mem_cons.mp hin with rfl | hin
          · exact upperAlnum_of_isDig hd
          · simp at hin
    have hpz : List.count ' ' p = 0 := by
      apply count_space_zero_of_upperAlnum
      intro c hc
      rw [hp] at hc
      rcases List.mem_cons.mp hc with rfl | hc
      · exact upperAlnum_of_isDig hc1
      · rcases List.mem_cons.mp hc with rfl | hc
        · exact upperAlnum_of_isDig hc2
        · simp at hc
    have hsz : List.count ' ' ser = 0 := count_space_zero_of_upperAlnum hserAl
    have hfz : List.count ' ' (fmtNum num) = 0 := by
      rw [List.count_eq_zero]
      intro hmem
      rcases mem_fmtNum hmem with hin | he
      · exact absurd (hnumdig ' ' hin) (by decide)
      · exact absurd he (by decide)
    rw [h1, List.count_append, List.count_cons, List.count_append,
      List.count_cons, hpz, hsz, hfz]
    decide

/-- The canonical-grammar validator accepts the display form used by
`normalize_plate`, for any digit-group sizes in `2..3`. -/
theorem canonMatch_display (c1 c2 : Char) (L : List Char) (sd : Option Char)
    (a b : List Char)
    (h1 : isDig c1 = true) (h2 : isDig c2 = true)
    (hL : ∀ c ∈ L, isLet c = true) (hL1 : 1 ≤ L.length) (hL2 : L.length ≤ 2)
    (hsd : ∀ d ∈ sd.toList, isDig d = true)
    (ha : ∀ c ∈ a, isDig c = true) (hb : ∀ c ∈ b, isDig c = true)
    (ha1 : 2 ≤ a.length) (ha2 : a.length ≤ 3)
    (hb1 : 2 ≤ b.length) (hb2 : b.length ≤ 3) :
    canonMatch (c1 :: c2 :: '-' :: (L ++ sd.toList ++ ' ' :: (a ++ '.' :: b)))
      = true := by
  obtain ⟨a0, as, rfl⟩ : ∃ a0 as, a = a0 :: as := by
    cases a with
    | nil => simp at ha1
    | cons a0 as => exact ⟨a0, as, rfl⟩
  have ha0 : isDig a0 = true := ha a0 (by simp)
  have hTail : canonTail (' ' :: ((a0 :: as) ++ '.' :: b)) = true := by
    have hsp1 : List.takeWhile isSpacePy (' ' :: ((a0 :: as) ++ '.' :: b)) =
        [' '] := by
      rw [List.takeWhile_cons_of_pos (by decide), List.cons_append,
        List.takeWhile_cons_of_neg (by simp [isDig_not_isSpacePy ha0])]
    have hsp2 : List.dropWhile isSpacePy (' ' :: ((a0 :: as) ++ '.' :: b)) =
        (a0 :: as) ++ '.' :: b := by
      rw [List.dropWhile_cons_of_pos (by decide), List.cons_append,
        List.dropWhile_cons_of_neg (by simp [isDig_not_isSpacePy ha0]),
        ← List.cons_append]
    have hda := span_append (p := isDig) (a := a0 :: as) (b := '.' :: b) ha
      (by intro x hx; rw [List.head?_cons] at hx; cases hx; decide)
    have hdb := span_append (p := isDig) (a := b) (b := ([] : List Char)) hb
      (by intro x hx; simp at hx)
    rw [List.append_nil] at hdb
    simp only [canonTail, hsp1, hsp2, hda.1, hda.2, hdb.1, hdb.2]
    simp only [List.length_cons, List.length_nil, List.isEmpty_nil,
      beq_self_eq_true, Bool.and_true, Bool.true_and, Bool.and_eq_true,
      decide_eq_true_eq]
    simp only [List.length_cons] at ha1 ha2
    refine ⟨by omega, ⟨by omega, by omega⟩, by omega⟩
  have hsdHead : ∀ x, (sd.toList ++ ' ' :: ((a0 :: as) ++ '.' :: b)).head? = some x →
      isLet x = false := by
    intro x hx
    cases hsdc : sd with
    | none =>
      rw [hsdc] at hx
      rw [show (none : Option Char).toList = [] from rfl, List.nil_append,
        List.head?_cons] at hx
      cases hx
      decide
    | some d =>
      rw [hsdc] at hx
      rw [show (some d).toList = [d] from rfl, List.cons_append,
        List.head?_cons] at hx
      cases hx
      exact isDig_not_isLet (hsd x (by rw [hsdc]; simp))
  have hrest := span_append (p := isLet) (a := L)
    (b := sd.toList ++ ' ' :: ((a0 :: as) ++ '.' :: b)) hL hsdHead
  have hSR : canonSeriesRest (sd.toList ++ ' ' :: ((a0 :: as) ++ '.' :: b)) =
      true := by
    cases hsdc : sd with
    | none =>
      rw [show (none : Option Char).toList = [] from rfl, List.nil_append,
        canonSeriesRest, if_neg (by decide)]
      exact hTail
    | some d =>
      rw [show (some d).toList = [d] from rfl, List.cons_append,
        canonSeriesRest, if_pos (by
          have := hsd d (by rw [hsdc]; simp)
          exact this)]
      exact hTail
  rw [canonMatch]
  rw [show (L ++ sd.toList ++ ' ' :: ((a0 :: as) ++ '.' :: b)) =
    L ++ (sd.toList ++ ' ' :: ((a0 :: as) ++ '.' :: b)) from by simp]
  rw [hrest.1, hrest.2]
  simp only [List.cons_append] at hSR
  simp [h1, h2, hL1, hL2, hSR]

/-! ## Theorems for the specification claims -/

/-- C1: for every raw model text, every string in the list returned by the
parse portion of `extract_text_from_image` matches the canonical grammar as a
full-string match; no string appears twice (case-sensitive exact-string
equality); and the list order is the order of first occurrence in the
candidate stream: the outputs appear in strictly increasing order of their
first index among the candidates, and every candidate does appear. -/
theorem C1_output_invariants (raw : String) :
    (∀ p ∈ parsePipeline raw, canonOk p = true) ∧
    (parsePipeline raw).Nodup ∧
    (parsePipeline raw).Pairwise
      (fun a b => (candidates raw).indexOf a < (candidates raw).indexOf b) ∧
    ∀ x ∈ candidates raw, x ∈ parsePipeline raw := by
  refine ⟨?_, nodup_dedupeGo [] (candidates raw),
    pairwise_dedupeGo [] (candidates raw), ?_⟩
  · intro p hp
    have hx : p ∈ candidates raw := (mem_dedupeGo.mp hp).1
    exact (mem_candidates hx).1
  · intro x hx
    have hcanon := (mem_candidates hx).1
    have hne : x ≠ "" := by
      intro e
      rw [e] at hcanon
      exact absurd hcanon (by decide)
    exact mem_dedupeGo.mpr ⟨hx, hne, by simp⟩

/-- C2 (counterexample): the serial digits `123456` after province `29` and
series letters `AY` do NOT normalize to `29-AY 123.456`: the greedy `\d?` of
the inner regex absorbs the first digit into the series, giving
`29-AY1 23.56`. -/
theorem C2_counterexample :
    normalize_plate "29AY123456" = "29-AY1 23.56" ∧
    normalize_plate "29AY123456" ≠ "29-AY 123.456" :=
  ⟨by decide, by decide⟩

/-- C2 (amended): for every input of shape two digits, then 1–2 letters, then
a digit run (the full-match shape of the inner regex), `normalize_plate`
splits it with the greedy semantics of
`(\d{2})([A-Z]{1,2}\d?)(\d{4,6})`: with exactly 4 digits after the letters
the series is the letters alone and the serial formats as `DD.DD`; with 5–7
digits the series absorbs the first digit and the remaining 4–6 digits format
by the length rules of `fmtNum` (4 → `[0:2].[2:]`, 5 → `[0:2].[3:]` skipping
index 2, 6 → `[0:3].[3:]`).  Hence stripped `29AY123456` yields
`29-AY1 23.56`, and a serial printed as `DDD.DDD` arises only when seven
digits follow the letters. -/
theorem C2_amended_greedy_split (d1 d2 : Char) (L ds : List Char)
    (h1 : isDig d1 = true) (h2 : isDig d2 = true)
    (hL : ∀ c ∈ L, isLet c = true) (hL1 : 1 ≤ L.length) (hL2 : L.length ≤ 2)
    (hds : ∀ c ∈ ds, isDig c = true) :
    (ds.length = 4 →
      normalize_plate ⟨d1 :: d2 :: (L ++ ds)⟩ =
        ⟨d1 :: d2 :: '-' :: (L ++ ' ' :: (ds.take 2 ++ '.' :: ds.drop 2))⟩) ∧
    ∀ e es, ds = e :: es → 5 ≤ ds.length → ds.length ≤ 7 →
      normalize_plate ⟨d1 :: d2 :: (L ++ ds)⟩ =
        ⟨d1 :: d2 :: '-' :: ((L ++ [e]) ++ ' ' :: fmtNum es)⟩ := by
  have hall : ∀ c ∈ d1 :: d2 :: (L ++ ds), isUpperAlnum c = true := by
    intro c hc
    rcases List.mem_cons.mp hc with rfl | hc
    · exact upperAlnum_of_isDig h1
    rcases List.mem_cons.mp hc with rfl | hc
    · exact upperAlnum_of_isDig h2
    rcases List.mem_append.mp hc with hc | hc
    · exact upperAlnum_of_isLet (hL c hc)
    · exact upperAlnum_of_isDig (hds c hc)
  have hstrip : stripU (d1 :: d2 :: (L ++ ds)) = d1 :: d2 :: (L ++ ds) :=
    stripU_all hall
  constructor
  · intro hlen
    have hcore : normCore (d1 :: d2 :: (L ++ ds)) =
        d1 :: d2 :: '-' :: (L ++ ' ' :: (ds.take 2 ++ '.' :: ds.drop 2)) := by
      simp only [normCore, hstrip,
        innerMatch_append4 d1 d2 L ds h1 h2 hL hL1 hL2 hds hlen]
      show [d1, d2] ++ '-' :: (L ++ ' ' :: fmtNum ds) = _
      rw [fmtNum, if_pos hlen]
      simp
    exact congrArg (fun t : List Char => (⟨t⟩ : String)) hcore
  · intro e es hds_eq h5 h7
    subst hds_eq
    simp only [List.length_cons] at h5 h7
    have hcore : normCore (d1 :: d2 :: (L ++ e :: es)) =
        d1 :: d2 :: '-' :: ((L ++ [e]) ++ ' ' :: fmtNum es) := by
      simp only [normCore, hstrip,
        innerMatch_append_absorb d1 d2 e L es h1 h2 hL hL1 hL2
          (hds e (by simp)) (fun c hc => hds c (by simp [hc]))
          (by omega) (by omega)]
      show [d1, d2] ++ '-' :: ((L ++ [e]) ++ ' ' :: fmtNum es) = _
      simp
    exact congrArg (fun t : List Char => (⟨t⟩ : String)) hcore

/-- Witness for C2 (amended): both branches of the theorem evaluated at the
concrete inputs of the claim. -/
theorem C2_amended_witness :
    normalize_plate "29AY123456" = "29-AY1 23.56" ∧
    normalize_plate "29AY1234" = "29-AY 12.34" := by
  constructor
  · have h := (C2_amended_greedy_split '2' '9' ['A', 'Y']
      ['1', '2', '3', '4', '5', '6'] (by decide) (by decide) (by decide)
      (by decide) (by decide) (by decide)).2
      '1' ['2', '3', '4', '5', '6'] rfl (by decide) (by decide)
    have e1 : ("29AY123456" : String) =
        ⟨'2' :: '9' :: (['A', 'Y'] ++ ['1', '2', '3', '4', '5', '6'])⟩ := by
      decide
    have e2 : ("29-AY1 23.56" : String) =
        ⟨'2' :: '9' :: '-' :: ((['A', 'Y'] ++ ['1']) ++
          ' ' :: fmtNum ['2', '3', '4', '5', '6'])⟩ := by decide
    rw [e1, e2]
    exact h
  · have h := (C2_amended_greedy_split '2' '9' ['A', 'Y'] ['1', '2', '3', '4']
      (by decide) (by decide) (by decide) (by decide) (by decide)
      (by decide)).1 (by decide)
    have e1 : ("29AY1234" : String) =
        ⟨'2' :: '9' :: (['A', 'Y'] ++ ['1', '2', '3', '4'])⟩ := by decide
    have e2 : ("29-AY 12.34" : String) =
        ⟨'2' :: '9' :: '-' :: (['A', 'Y'] ++
          ' ' :: (['1', '2', '3', '4'].take 2 ++ '.' ::
            ['1', '2', '3', '4'].drop 2))⟩ := by decide
    rw [e1, e2]
    exact h

/-- C3: when the fence-stripped raw text parses as a JSON array whose
normalized elements contain at least one canonical plate, the candidate
stream is exactly the validated structured candidates and the fallback
contributes nothing: the returned list is their deduplication, and every
returned plate is one of them. -/
theorem C3_structured_precedence (raw : String) (xs : List Json)
    (hjson : json_loads (cleanText raw.data) = some (Json.arr xs))
    (hne : (xs.map fun x => normalize_plate ⟨pyStr x⟩).filter canonOk ≠ []) :
    candidates raw = (xs.map fun x => normalize_plate ⟨pyStr x⟩).filter canonOk ∧
    parsePipeline raw =
      dedupe_preserve_order
        ((xs.map fun x => normalize_plate ⟨pyStr x⟩).filter canonOk) ∧
    ∀ p ∈ parsePipeline raw,
      p ∈ (xs.map fun x => normalize_plate ⟨pyStr x⟩).filter canonOk := by
  have hst : structuredCands (cleanText raw.data) =
      (xs.map fun x => normalize_plate ⟨pyStr x⟩).filter canonOk := by
    simp only [structuredCands, hjson]
  have hc : candidates raw =
      (xs.map fun x => normalize_plate ⟨pyStr x⟩).filter canonOk := by
    simp only [candidates, hst, if_neg hne]
  refine ⟨hc, ?_, ?_⟩
  · show dedupe_preserve_order (candidates raw) = _
    rw [hc]
  · intro p hp
    exact hc ▸ (mem_dedupeGo.mp hp).1

/-- Witness for C3: a structured raw text with one valid and one junk
element; the candidate stream is exactly the validated structured result. -/
theorem C3_witness :
    candidates "[\"37M156341\", \"hello\"]" = ["37-M1 56.41"] := by
  have h := (C3_structured_precedence "[\"37M156341\", \"hello\"]"
    [Json.str "37M156341".data, Json.str "hello".data] rfl (by decide)).1
  rw [h]
  decide

/-- C4 (counterexample): on the prose input the pipeline does NOT return
`["37-M1 56.341", "29-AY 005.40"]` — the 5-digit offset quirk drops a digit
(`56.41`) and the greedy series digit gives `29-AY0 05.40`. -/
theorem C4_counterexample :
    parsePipeline "I see plate 37-M1 56341 and 29AY00540 in the image" ≠
      ["37-M1 56.341", "29-AY 005.40"] := by decide

/-- C4 (amended): the fallback regex path on the prose input returns exactly
`["37-M1 56.41", "29-AY0 05.40"]`. -/
theorem C4_amended_fallback :
    parsePipeline "I see plate 37-M1 56341 and 29AY00540 in the image" =
      ["37-M1 56.41", "29-AY0 05.40"] := by decide

/-- C5 (counterexample): the code-fenced JSON array does not yield
`["37-M1 56.341"]` (the 5-digit serial `56341` formats to `56.41`, dropping
the character at index 2). -/
theorem C5_counterexample :
    parsePipeline "```json\n[\"37M156341\"]\n```" ≠ ["37-M1 56.341"] := by
  decide

/-- C5 (amended): the code-fenced input parses identically to the unfenced
JSON array, and both yield `["37-M1 56.41"]`. -/
theorem C5_amended_fence :
    parsePipeline "```json\n[\"37M156341\"]\n```" =
      parsePipeline "[\"37M156341\"]" ∧
    parsePipeline "```json\n[\"37M156341\"]\n```" = ["37-M1 56.41"] :=
  ⟨by decide, by decide⟩

/-- C6 (counterexample): `29-AY 123.456` is a valid canonical plate, yet
`normalize_plate` maps it to `29-AY1 23.56`: idempotence fails on canonical
input with a letters-only series and a `DDD.DDD` serial. -/
theorem C6_counterexample :
    canonOk "29-AY 123.456" = true ∧
    normalize_plate "29-AY 123.456" ≠ "29-AY 123.456" :=
  ⟨by decide, by decide⟩

/-- C6 (amended): `normalize` is idempotent exactly on the canonical plates
that `normalize` itself produces: a single space, and digit groups `(2,2)`
(series with or without trailing digit) or `(3,3)` (series with a trailing
digit, so that re-stripping leaves seven digits to re-absorb).  Every such
plate is canonical and a fixed point of `normalize_plate`. -/
theorem C6_amended_idempotent (c1 c2 : Char) (L : List Char) (sd : Option Char)
    (a b : List Char)
    (h1 : isDig c1 = true) (h2 : isDig c2 = true)
    (hL : ∀ c ∈ L, isLet c = true) (hL1 : 1 ≤ L.length) (hL2 : L.length ≤ 2)
    (hsd : ∀ d ∈ sd.toList, isDig d = true)
    (ha : ∀ c ∈ a, isDig c = true) (hb : ∀ c ∈ b, isDig c = true)
    (hshape : (sd = none ∧ a.length = 2 ∧ b.length = 2) ∨
      (sd.isSome = true ∧ ((a.length = 2 ∧ b.length = 2) ∨
        (a.length = 3 ∧ b.length = 3)))) :
    canonOk ⟨c1 :: c2 :: '-' :: (L ++ sd.toList ++ ' ' :: (a ++ '.' :: b))⟩ =
      true ∧
    normalize_plate
        ⟨c1 :: c2 :: '-' :: (L ++ sd.toList ++ ' ' :: (a ++ '.' :: b))⟩ =
      ⟨c1 :: c2 :: '-' :: (L ++ sd.toList ++ ' ' :: (a ++ '.' :: b))⟩ := by
  have hlens : (2 ≤ a.length ∧ a.length ≤ 3) ∧ 2 ≤ b.length ∧ b.length ≤ 3 := by
    rcases hshape with ⟨-, ha', hb'⟩ | ⟨-, ⟨ha', hb'⟩ | ⟨ha', hb'⟩⟩ <;> omega
  constructor
  · exact canonMatch_display c1 c2 L sd a b h1 h2 hL hL1 hL2 hsd ha hb
      hlens.1.1 hlens.1.2 hlens.2.1 hlens.2.2
  · exact congrArg (fun t : List Char => (⟨t⟩ : String))
      (normCore_shape c1 c2 L sd a b h1 h2 hL hL1 hL2 hsd ha hb hshape)

/-- Witness for C6 (amended) at the stable canonical plate `29-AY 12.34`. -/
theorem C6_amended_witness :
    canonOk "29-AY 12.34" = true ∧
    normalize_plate "29-AY 12.34" = "29-AY 12.34" := by
  have h := C6_amended_idempotent '2' '9' ['A', 'Y'] none ['1', '2'] ['3', '4']
    (by decide) (by decide) (by decide) (by decide) (by decide) (by simp)
    (by decide) (by decide) (Or.inl ⟨rfl, rfl, rfl⟩)
  have e : ("29-AY 12.34" : String) =
      ⟨'2' :: '9' :: '-' :: (['A', 'Y'] ++ (none : Option Char).toList ++
        ' ' :: (['1', '2'] ++ '.' :: ['3', '4']))⟩ := by decide
  rw [e]
  exact h

/-- C7: when every model-call attempt raises, the invoker performs its
maximum of `DEFAULT_RETRIES = 2` attempts with a single backoff of 1.5
time-units between them, and returns the empty list to the caller instead of
propagating the failure. -/
theorem C7_retry_exhaustion (outcome : Nat → Except Unit String)
    (h : ∀ i, i < DEFAULT_RETRIES → outcome i = Except.error ()) :
    extract_text_from_image outcome = ([], [(3 : ℚ) / 2]) := by
  have h0 := h 0 (by decide)
  have h1 := h 1 (by decide)
  unfold extract_text_from_image
  rw [retryLoop]
  simp only [DEFAULT_RETRIES, h0]
  norm_num
  rw [retryLoop]
  simp only [DEFAULT_RETRIES, h1]
  norm_num

/-- Witness for C7: the outcome sequence that always fails. -/
theorem C7_witness :
    extract_text_from_image (fun _ => Except.error ()) = ([], [(3 : ℚ) / 2]) :=
  C7_retry_exhaustion (fun _ => Except.error ()) fun _ _ => rfl

/-- C8: the empty string and garbage prose yield an empty plate list without
an error; the JSON reader fails on both (returning `none`, the model of the
caught `JSONDecodeError`), which the pipeline treats as zero structured
candidates. -/
theorem C8_empty_garbage :
    parsePipeline "" = [] ∧ parsePipeline "no plates found" = [] ∧
    json_loads (cleanText "".data) = none ∧
    json_loads (cleanText "no plates found".data) = none :=
  ⟨by decide, by decide, rfl, rfl⟩

/-- C9: `normalize_plate` is idempotent over ALL strings: a non-matching
input is returned as its stripped uppercase-alphanumeric form, which strips
and matches identically on a second pass; a matching input's formatted output
re-normalizes to itself (including the 5-digit case, whose output serial has
4 digits and reformats identically). -/
theorem C9_normalize_idempotent (s : String) :
    normalize_plate (normalize_plate s) = normalize_plate s :=
  congrArg (fun t : List Char => (⟨t⟩ : String)) (normCore_idem s.data)

/-- C10: although the grammar validator accepts one-or-more whitespace
characters between the series and the serial (witnessed by the two-space
string `12-AB  34.56`), every plate string the pipeline actually returns
contains exactly one space, because every accepted candidate is an output of
`normalize_plate`, which writes a single literal space. -/
theorem C10_single_space (raw p : String) (hp : p ∈ parsePipeline raw) :
    p.data.count ' ' = 1 ∧ canonMatch "12-AB  34.56".data = true := by
  constructor
  · have hc : p ∈ candidates raw := (mem_dedupeGo.mp hp).1
    obtain ⟨hcanon, y, rfl⟩ := mem_candidates hc
    exact count_space_normCore hcanon
  · decide

/-- Witness for C10 at a concrete pipeline run. -/
theorem C10_witness :
    ("37-M1 56.41" : String).data.count ' ' = 1 ∧
    canonMatch "12-AB  34.56".data = true :=
  C10_single_space "[\"37M156341\"]" "37-M1 56.41" (by decide)

end PlateApp
